import Mathlib

/-!
Verification of the `mcmm.analysis` module (Markov state model analysis engine).

The development shallowly embeds the Python source `src/mcmm/analysis.py`:

* pandas `DataFrame` transition matrices become `RawMatrix` (row labels, column
  labels, rows of rationals); floating point arithmetic is modelled by `ℚ` and
  numpy closeness checks (`np.isclose` / `np.allclose`, default tolerances
  `rtol = 1e-5`, `atol = 1e-8`) are rational comparisons with those constants;
* exceptions become `Except Err`; the classes `InvalidValue`, `InvalidOperation`
  (from `mcmm.common`, not part of the sources) and Python `AssertionError`
  become the constructors of `Err`;
* external numerical routines (`np.linalg.eig`, `np.linalg.solve`,
  `msmtools.analysis.pcca`) are modelled as parameters: a committor computation
  receives the solver output `sol` and we reason under the hypothesis that
  `sol` solves the linear system that the source builds; the spectral engine
  receives the eigenvector / eigenvalue-count its eigensolver would return;
* recursion in `depth_first_search` is made total by a fuel argument; the fuel
  `countFalse flags + 1` provably dominates the recursion depth, so the
  embedding computes exactly the source recursion.
-/

namespace Mcmm

attribute [local semireducible] Rat.add Rat.mul Rat.sub Rat.inv

/-- Equality of `Except` values is decidable componentwise (used to evaluate
the embedding on concrete witnesses). -/
instance instDecEqExcept {ε α : Type} [DecidableEq ε] [DecidableEq α] :
    DecidableEq (Except ε α) := fun a b =>
  match a, b with
  | .error e, .error f =>
    if h : e = f then .isTrue (by rw [h]) else
      .isFalse (fun hh => h (Except.error.inj hh))
  | .error _, .ok _ => .isFalse (fun hh => Except.noConfusion hh)
  | .ok _, .error _ => .isFalse (fun hh => Except.noConfusion hh)
  | .ok x, .ok y =>
    if h : x = y then .isTrue (by rw [h]) else
      .isFalse (fun hh => h (Except.ok.inj hh))

/-- Error kinds. `invalidValue` and `invalidOperation` model the exception
classes of `mcmm.common`; `assertionError` models a failing Python `assert`. -/
inductive Err where
  | invalidValue
  | invalidOperation
  | assertionError
deriving DecidableEq, Repr

/-- numpy default relative tolerance (`rtol = 1e-5`). -/
def rtol : ℚ := 1 / 100000

/-- numpy default absolute tolerance (`atol = 1e-8`). -/
def atol : ℚ := 1 / 100000000

/-- `np.isclose a b` with default tolerances: `|a - b| ≤ atol + rtol * |b|`. -/
def npIsClose (a b : ℚ) : Bool := |a - b| ≤ atol + rtol * |b|

/-- A pandas `DataFrame` holding a matrix: row labels (`index`), column labels
(`columns`) and the rows of entries. -/
structure RawMatrix where
  rowLabels : List Nat
  colLabels : List Nat
  rows : List (List ℚ)
deriving DecidableEq, Repr

namespace RawMatrix

/-- Number of states (`shape[0]`, the length of the index). -/
def n (M : RawMatrix) : Nat := M.rowLabels.length

/-- Positional entry access (`.iat[i, j]`); out-of-range reads default to `0`
(the source would raise, but all verified call sites stay in range). -/
def entry (M : RawMatrix) (i j : Nat) : ℚ := (M.rows.getD i []).getD j 0

/-- Label-based entry access (`.at[a, b]` / `.loc`): positions are the first
occurrences of the labels in the index / columns. -/
def atLabel (M : RawMatrix) (a b : Nat) : ℚ :=
  M.entry (M.rowLabels.indexOf a) (M.colLabels.indexOf b)

/-- The adjacency view of the matrix used by the graph algorithms: Python
truthiness of `.iat[i, j]`, i.e. the entry is nonzero. -/
def adjacency (M : RawMatrix) : Nat → Nat → Bool :=
  fun i j => decide (M.entry i j ≠ 0)

/-- Shape well-formedness of a `DataFrame`: the row count matches the index and
every row has one entry per column label. -/
def WF (M : RawMatrix) : Prop :=
  M.rows.length = M.rowLabels.length ∧ ∀ r ∈ M.rows, r.length = M.colLabels.length

end RawMatrix

/-! ## Graph primitives (`depth_first_search`, `strongly_connected_components`) -/

/-- Number of unset flags; the recursion depth of `depth_first_search` is
bounded by one more than this quantity. -/
def countFalse (flags : List Bool) : Nat := flags.countP (fun b => !b)

/-- The loop `for vertex in range(...)` of `depth_first_search`, abstracted
over the recursive call `rec` (which will be the depth-first search at one
fuel less). Threads the result list and the mutated flag list. -/
def kidsLoop (adj : Nat → Nat → Bool) (root : Nat)
    (rec : Nat → List Bool → List Nat × List Bool) :
    List Nat → List Bool → List Nat × List Bool
  | [], flags => ([], flags)
  | v :: vs, flags =>
    if adj root v && !(flags.getD v false) then
      let p := rec v flags
      let q := kidsLoop adj root rec vs p.2
      (p.1 ++ q.1, q.2)
    else kidsLoop adj root rec vs flags

/-- Fuelled depth-first search.  `dfsF fuel adj n root flags` mirrors
`depth_first_search(adjacency_matrix, root, flags)`: set the root's flag,
recurse into every adjacent unflagged vertex in index order, and append the
root last (post-order). The fuel only bounds the recursion depth. -/
def dfsF (adj : Nat → Nat → Bool) (n : Nat) : Nat → Nat → List Bool → List Nat × List Bool
  | 0, _, flags => ([], flags)
  | fuel + 1, root, flags =>
    let flags1 := flags.set root true
    let p := kidsLoop adj root (dfsF adj n fuel) (List.range n) flags1
    (p.1 ++ [root], p.2)

/-- `depth_first_search` of the source: the fuel `countFalse flags + 1`
dominates the recursion depth (each nested call consumes an unset flag). -/
def depth_first_search (adj : Nat → Nat → Bool) (n : Nat) (root : Nat)
    (flags : List Bool) : List Nat × List Bool :=
  dfsF adj n (countFalse flags + 1) root flags

/-- First pass of `strongly_connected_components`: run a depth-first search
from every still-unflagged node in index order, concatenating the post-orders
into one combined ordering. -/
def sccPass1 (adj : Nat → Nat → Bool) (n : Nat) :
    List Nat → List Bool → List Nat × List Bool
  | [], flags => ([], flags)
  | node :: rest, flags =>
    if flags.getD node false then sccPass1 adj n rest flags
    else
      let p := depth_first_search adj n node flags
      let q := sccPass1 adj n rest p.2
      (p.1 ++ q.1, q.2)

/-- Second pass of `strongly_connected_components`: depth-first searches over
the transposed graph, each search from a still-unflagged node contributing one
component. -/
def sccPass2 (adjT : Nat → Nat → Bool) (n : Nat) :
    List Nat → List Bool → List (List Nat) × List Bool
  | [], flags => ([], flags)
  | node :: rest, flags =>
    if flags.getD node false then sccPass2 adjT n rest flags
    else
      let p := depth_first_search adjT n node flags
      let q := sccPass2 adjT n rest p.2
      (p.1 :: q.1, q.2)

/-- `strongly_connected_components` (Kosaraju): pass 1 over the graph collects
a combined post-order, pass 2 over the transposed graph in reverse of that
order yields the components, finally positions are translated to labels
(`adjacency_matrix.index[i]`). -/
def strongly_connected_components (adj : Nat → Nat → Bool) (n : Nat)
    (labels : List Nat) : List (List Nat) :=
  let p := sccPass1 adj n (List.range n) (List.replicate n false)
  let q := sccPass2 (fun i j => adj j i) n p.1.reverse (List.replicate n false)
  q.1.map (fun comp => comp.map (fun i => labels.getD i 0))

/-- `component_is_closed(component, adjacency_matrix)`: no entry `> 0` from a
component member to a label outside the component. -/
def component_is_closed (component : List Nat) (M : RawMatrix) : Bool :=
  component.all (fun a =>
    (M.rowLabels.filter (fun b => !(decide (b ∈ component)))).all
      (fun b => !(decide (0 < M.atLabel a b))))

/-- Reachability through admissible vertices: `Reach adj ok root v` holds when
a directed path leads from `root` to `v` whose vertices after `root` all
satisfy `ok`. This is the specification side of depth-first search ("reachable
through initially-unflagged nodes"). -/
inductive Reach (adj : Nat → Nat → Bool) (ok : Nat → Prop) (root : Nat) : Nat → Prop where
  | base : Reach adj ok root root
  | step {u v : Nat} : Reach adj ok root u → adj u v = true → ok v → Reach adj ok root v

/-- The verified behaviour of one `depth_first_search` call from `root` on
`flags`: `res` is the returned post-order, `out` the flag list after the
call. -/
structure DfsOut (adj : Nat → Nat → Bool) (n root : Nat)
    (flags : List Bool) (res : List Nat) (out : List Bool) : Prop where
  len : out.length = flags.length
  mem_out : ∀ j, out.getD j false = (flags.getD j false || decide (j ∈ res))
  last : res.getLast? = some root
  nodup : res.Nodup
  fresh : ∀ j ∈ res, j ≠ root → flags.getD j false = false ∧ j < n
  closure : ∀ u ∈ res, ∀ v, v < n → adj u v = true → out.getD v false = true
  sound : ∀ v ∈ res,
    Reach adj (fun w => w < n ∧ flags.getD w false = false) root v

/-- The verified behaviour of the child loop of `depth_first_search` over the
remaining vertex list `vs`. -/
structure KidsOut (adj : Nat → Nat → Bool) (n root : Nat)
    (flags : List Bool) (vs res : List Nat) (out : List Bool) : Prop where
  len : out.length = flags.length
  mem_out : ∀ j, out.getD j false = (flags.getD j false || decide (j ∈ res))
  nodup : res.Nodup
  fresh : ∀ j ∈ res, flags.getD j false = false ∧ j < n
  closure : ∀ u ∈ res, ∀ v, v < n → adj u v = true → out.getD v false = true
  covered : ∀ v ∈ vs, adj root v = true → out.getD v false = true
  sound : ∀ w ∈ res,
    Reach adj (fun x => x < n ∧ flags.getD x false = false) root w

/-- The verified behaviour of one pass of `strongly_connected_components`
over the remaining start-node list `nodes` (the collected node list for pass
one, the concatenation of the collected components for pass two). -/
structure PassOut (n : Nat) (flags : List Bool) (nodes lst : List Nat)
    (out : List Bool) : Prop where
  len : out.length = flags.length
  mem_out : ∀ j, out.getD j false = (flags.getD j false || decide (j ∈ lst))
  nodup : lst.Nodup
  fresh : ∀ j ∈ lst, flags.getD j false = false ∧ j < n
  covered : ∀ v ∈ nodes, out.getD v false = true

/-! ## Periodicity detector (`_determine_aperiodicity`) -/

/-- The source's helper `gcd(a, b)` (iterative Euclid, `while b != 0`).  It is
only ever applied to positive arguments. -/
def gcd (a : Nat) : Nat → Nat
  | 0 => a
  | b + 1 => gcd (b + 1) (a % (b + 1))
termination_by b => b
decreasing_by exact Nat.mod_lt _ (Nat.succ_pos b)

/-- One step of the binarized indicator walk: propagate `pos` through the
matrix (`pos.dot(T)`) and binarize (`pos[:] = pos[:] > 0`). -/
def binStep (T : Nat → Nat → ℚ) (n : Nat) (pos : Nat → Bool) : Nat → Bool :=
  fun j => decide (0 < ((List.range n).map (fun i => if pos i then T i j else 0)).sum)

/-- The indicator vector concentrated at state `s` (`pos[s] = 1`). -/
def indicator (s : Nat) : Nat → Bool := fun j => decide (j = s)

/-- The inner loop of `_determine_aperiodicity` for one state `s`: iterate the
binarized walk, accumulate the gcd of the step counts at which the walk sits on
`s` again, and break out as soon as the accumulated period reaches `1`.  The
source's `-1` sentinel for "no return seen yet" is modelled by `0` (the source
guards every `gcd` application by `period == -1`, exactly as the `period = 0`
test below guards it). -/
def aperInner (T : Nat → Nat → ℚ) (n s : Nat) :
    (Nat → Bool) → Nat → Nat → Nat → Nat
  | _, _, 0, period => period
  | pos, i, steps + 1, period =>
    let pos1 := binStep T n pos
    let period1 := if pos1 s then (if period = 0 then i else gcd i period) else period
    if period1 = 1 then 1 else aperInner T n s pos1 (i + 1) steps period1

/-- The outer loop of `_determine_aperiodicity` over the states (`rem` states
remaining, current state `s`): a state whose accumulated period is not `1`
makes the whole answer `False`; a state with period `1` answers `True`
immediately when the chain is irreducible and moves on otherwise. -/
def aperOuter (T : Nat → Nat → ℚ) (n : Nat) (irred : Bool) : Nat → Nat → Bool
  | 0, _ => true
  | rem + 1, s =>
    let p := aperInner T n s (indicator s) 1 (2 * n - 1) 0
    if p = 1 then (if irred then true else aperOuter T n irred rem (s + 1))
    else false

/-- `_determine_aperiodicity`: probe every state with the binarized walk for up
to `2 n - 1` steps. `irred` is the value of `self.is_irreducible` read at the
start. -/
def determineAperiodicity (T : Nat → Nat → ℚ) (n : Nat) (irred : Bool) : Bool :=
  aperOuter T n irred n 0

/-- Specification-side period of a state: gcd of all step counts
`1 ≤ k ≤ 2 n - 1` at which the binarized indicator walk started at `s` is back
at `s` (`0` when the walk never returns within the budget). -/
def statePeriod (T : Nat → Nat → ℚ) (n s : Nat) : Nat :=
  ((List.range' 1 (2 * n - 1)).filter
      (fun k => (binStep T n)^[k] (indicator s) s)).foldl
    (fun a k => Nat.gcd k a) 0

/-! ## Committors (`_commitors`) -/

/-- The result-assembly loop of `_commitors`: traverse the states in index
order; a state in `A` (the first set handed to `_commitors`) gets `0`, a state
in `B` gets `1`, every other state consumes the next component of the solver
output `sol`. -/
def committorAux (A B : List Nat) (sol : List ℚ) : List Nat → Nat → List ℚ
  | [], _ => []
  | i :: rest, c =>
    if i ∈ A then 0 :: committorAux A B sol rest c
    else if i ∈ B then 1 :: committorAux A B sol rest c
    else sol.getD c 0 :: committorAux A B sol rest (c + 1)

/-- `_commitors(A, B, T)` with the output of `np.linalg.solve` supplied as
`sol` (the solver is external code; theorems about `committors` assume that
`sol` solves the linear system the source builds, see
`SolvesCommittorSystem`). -/
def committors (states A B : List Nat) (sol : List ℚ) : List ℚ :=
  committorAux A B sol states 0

/-- The complement `C = states - (A ∪ B)` in index order (the source takes a
CPython set difference; for the small integer labels of this code base set
iteration order is ascending insertion order, i.e. index order). -/
def complementC (states A B : List Nat) : List Nat :=
  states.filter (fun i => !(decide (i ∈ A)) && !(decide (i ∈ B)))

/-- Entry `(a, b)` of `M = T - np.identity(n)` under label addressing; for the
distinct labels of a model the positional identity coincides with label
equality. -/
def sysM (T : RawMatrix) (a b : Nat) : ℚ :=
  T.atLabel a b - (if a = b then 1 else 0)

/-- Row-sum `d = M.loc[C, B].sum(axis=1)` for one row label `a`. -/
def rowRHS (T : RawMatrix) (B : List Nat) (a : Nat) : ℚ :=
  (B.map (fun b => sysM T a b)).sum

/-- The linear system `(T - I)_{C,C} x = -(T - I)_{C,B} · 1` solved by
`_commitors` over the complement `C` of `A ∪ B`. -/
def SolvesCommittorSystem (T : RawMatrix) (A B : List Nat) (x : List ℚ) : Prop :=
  let C := complementC T.rowLabels A B
  x.length = C.length ∧
    ∀ k, k < C.length →
      ((List.range C.length).map
          (fun l => sysM T (C.getD k 0) (C.getD l 0) * x.getD l 0)).sum =
        - rowRHS T B (C.getD k 0)

instance (T : RawMatrix) (A B : List Nat) (x : List ℚ) :
    Decidable (SolvesCommittorSystem T A B x) := by
  unfold SolvesCommittorSystem
  exact instDecidableAnd

/-- The components of a vector `r` at the complement positions: the values the
assembly loop placed outside `A ∪ B`. -/
def restrictToC (states A B : List Nat) (r : List ℚ) : List ℚ :=
  ((states.zip r).filter
      (fun p => !(decide (p.1 ∈ A)) && !(decide (p.1 ∈ B)))).map Prod.snd

/-! ## Model container (`MarkovStateModel`) -/

/-- `CommunicationClass`: sorted member labels plus the closed flag. -/
structure CommunicationClass where
  states : List Nat
  closed : Bool
deriving DecidableEq, Repr

/-- `is_stochastic_matrix(A)`: all entries in `[0, 1]` and every row sum
`np.allclose` to `1`. -/
def is_stochastic_matrix (M : RawMatrix) : Bool :=
  M.rows.all (fun r => r.all (fun x => decide (0 ≤ x))) &&
    M.rows.all (fun r => r.all (fun x => decide (x ≤ 1))) &&
    M.rows.all (fun r => npIsClose r.sum 1)

/-- A constructed `MarkovStateModel`: the validated matrix, its labels, the
lag time, and the memoization slots for the derived quantities (all
uninitialized, `None`, at construction). -/
structure MarkovStateModel where
  states : List Nat
  transition_matrix : RawMatrix
  lagtime : Nat
  backwardCache : Option RawMatrix := none
  stationaryCache : Option (List ℚ) := none
  aperiodicCache : Option Bool := none
  classesCache : Option (List CommunicationClass) := none
deriving DecidableEq, Repr

/-- The constructor `MarkovStateModel.__init__(transition_matrix, lagtime=1)`:
raise `InvalidValue` when the matrix is not stochastic, not square, or its
column labels differ (elementwise) from its row labels; otherwise store the
labels, the matrix and the lag time with every derived field uninitialized. -/
def mkModel (M : RawMatrix) (lagtime : Nat) : Except Err MarkovStateModel :=
  if ¬ (is_stochastic_matrix M = true) then .error .invalidValue
  else if ¬ (M.rowLabels.length = M.colLabels.length) then .error .invalidValue
  else if ¬ (M.colLabels = M.rowLabels) then .error .invalidValue
  else .ok { states := M.rowLabels, transition_matrix := M, lagtime := lagtime }

namespace MarkovStateModel

/-- `self._num_states` (`transition_matrix.shape[0]`). -/
def numStates (m : MarkovStateModel) : Nat := m.transition_matrix.n

/-- `communication_classes`: the strongly connected components of the
transition matrix as adjacency, each sorted and wrapped with its closedness,
the list sorted by descending size (stable, as Python `list.sort`). -/
def communication_classes (m : MarkovStateModel) : List CommunicationClass :=
  List.insertionSort (fun c d => d.states.length ≤ c.states.length)
    ((strongly_connected_components m.transition_matrix.adjacency
        m.transition_matrix.n m.transition_matrix.rowLabels).map
      (fun c => ⟨List.insertionSort (· ≤ ·) c, component_is_closed c m.transition_matrix⟩))

/-- `is_irreducible`: exactly one communication class. -/
def is_irreducible (m : MarkovStateModel) : Bool :=
  decide (m.communication_classes.length = 1)

/-- `is_aperiodic` (via `_determine_aperiodicity`). -/
def is_aperiodic (m : MarkovStateModel) : Bool :=
  determineAperiodicity (fun i j => m.transition_matrix.entry i j) m.numStates
    m.is_irreducible

/-- `_find_stationary_distribution`: raise `InvalidOperation` on a reducible
chain, otherwise normalize the left eigenvector for eigenvalue `≈ 1`.  The
eigenvector is produced by the external `np.linalg.eig`; it is supplied here
as the parameter `v`, and the source's final normalization `v / np.sum(v)` is
kept. -/
def find_stationary_distribution (m : MarkovStateModel) (v : List ℚ) :
    Except Err (List ℚ) :=
  if ¬ (m.is_irreducible = true) then .error .invalidOperation
  else .ok (v.map (fun x => x / v.sum))

/-- The `period` property: raise `InvalidOperation` on a reducible chain,
otherwise return the number of eigenvalues of modulus `≈ 1`.  That count is
computed from the external eigensolver's output and is supplied as the
parameter `unitEigCount`. -/
def periodProp (m : MarkovStateModel) (unitEigCount : Nat) : Except Err Nat :=
  if ¬ (m.is_irreducible = true) then .error .invalidOperation
  else .ok unitEigCount

/-- The backward transition matrix
`T.T.mul(pi, axis=1).mul(1/pi, axis=0)`: entry `(i, j)` is
`T[j, i] * pi[j] / pi[i]`; labels are preserved. -/
def backwardMatrix (M : RawMatrix) (pi : List ℚ) : RawMatrix :=
  ⟨M.rowLabels, M.colLabels,
    (List.range M.n).map (fun i =>
      (List.range M.n).map (fun j => M.entry j i * pi.getD j 0 * (pi.getD i 0)⁻¹))⟩

/-- `np.allclose` on two `n × n` matrices, elementwise with the default
tolerances. -/
def npAllCloseMat (X Y : RawMatrix) (n : Nat) : Bool :=
  (List.range n).all (fun i =>
    (List.range n).all (fun j => npIsClose (X.entry i j) (Y.entry i j)))

/-- `is_reversible`: `np.allclose(backward_transition_matrix,
transition_matrix)`.  The backward matrix needs the stationary distribution,
hence the computation first propagates the reducible-chain
`InvalidOperation`; `v` is the eigensolver output feeding the stationary
distribution. -/
def is_reversible (m : MarkovStateModel) (v : List ℚ) : Except Err Bool :=
  (m.find_stationary_distribution v).map
    (fun pi => npAllCloseMat (backwardMatrix m.transition_matrix pi)
      m.transition_matrix m.numStates)

/-- `pcca(num_sets)`: raise `InvalidOperation` on a non-reversible chain,
raise `InvalidValue` when `num_sets` exceeds the state count, otherwise
delegate to the external `msmtools.analysis.pcca` (the delegation is the `ok`
result; its membership matrix is outside this model). -/
def pcca (m : MarkovStateModel) (v : List ℚ) (numSets : Nat) : Except Err Unit :=
  (m.is_reversible v).bind (fun rev =>
    if ¬ (rev = true) then .error .invalidOperation
    else if numSets > m.numStates then .error .invalidValue
    else .ok ())

/-- `restriction(communication_class)`: assert closedness (a failing Python
`assert` is `assertionError`), then construct a new model from the label
submatrix `transition_matrix.loc[states, states]` with the default lag time. -/
def restriction (m : MarkovStateModel) (cc : CommunicationClass) :
    Except Err MarkovStateModel :=
  if cc.closed then
    mkModel ⟨cc.states, cc.states,
      cc.states.map (fun a => cc.states.map (fun b => m.transition_matrix.atLabel a b))⟩ 1
  else .error .assertionError

/-- `forward_committors(A, B)`: `_commitors(A, B, transition_matrix)` with the
solver output supplied as `sol`. -/
def forward_committors (m : MarkovStateModel) (A B : List Nat) (sol : List ℚ) :
    List ℚ :=
  committors m.states A B sol

/-- The `backward_transition_matrix` property: it first computes the
stationary distribution -- raising `InvalidOperation` on a reducible chain --
and only then builds `T.T.mul(pi, axis=1).mul(1/pi, axis=0)`; `v` is the
eigensolver output feeding the stationary distribution. -/
def backward_transition_matrix (m : MarkovStateModel) (v : List ℚ) :
    Except Err RawMatrix :=
  (m.find_stationary_distribution v).map
    (fun pi => backwardMatrix m.transition_matrix pi)

/-- `backward_commitors(A, B)`: evaluates `self.backward_transition_matrix`
first (which raises `InvalidOperation` on a reducible chain before any
committor assembly runs), then runs `_commitors(B, A, backward_matrix)` --
the sets are swapped before the assembly loop; the propagator only enters
through the external solver, whose output is supplied as `sol`. -/
def backward_commitors (m : MarkovStateModel) (A B : List Nat) (v : List ℚ)
    (sol : List ℚ) : Except Err (List ℚ) :=
  (m.backward_transition_matrix v).map (fun _ => committors m.states B A sol)

end MarkovStateModel

/-! ## Concrete fixtures used by witnesses and counterexamples -/

/-- The 3-state identity matrix (self loops only, reducible). -/
def idMat : RawMatrix := ⟨[0, 1, 2], [0, 1, 2], [[1, 0, 0], [0, 1, 0], [0, 0, 1]]⟩

/-- The model built from `idMat`. -/
def idModel : MarkovStateModel := ⟨[0, 1, 2], idMat, 1, none, none, none, none⟩

/-- A stochastic square matrix whose column labels are the row labels in a
different order. -/
def mismatchMat : RawMatrix :=
  ⟨[0, 1], [1, 0], [[1/2, 1/2], [1/2, 1/2]]⟩

/-- A 4-state matrix with one open class `{0}` and one closed class
`{1, 2, 3}` (rational analogue of the source's restriction test). -/
def restMat : RawMatrix :=
  ⟨[0, 1, 2, 3], [0, 1, 2, 3],
    [[2/5, 1/5, 1/5, 1/5], [0, 2/5, 1/2, 1/10], [0, 1/10, 7/10, 1/5],
     [0, 3/5, 1/10, 3/10]]⟩

/-- The model built from `restMat`. -/
def restModel : MarkovStateModel := ⟨[0, 1, 2, 3], restMat, 7, none, none, none, none⟩

/-- The restriction of `restModel` to the closed class `{1, 2, 3}`. -/
def restSubModel : MarkovStateModel :=
  ⟨[1, 2, 3],
    ⟨[1, 2, 3], [1, 2, 3],
      [[2/5, 1/2, 1/10], [1/10, 7/10, 1/5], [3/5, 1/10, 3/10]]⟩,
    1, none, none, none, none⟩

/-- The 4-state committor example matrix: `T[0,1] = T[0,2] + T[0,3]`,
`A = {1}`, `B = {2, 3}`. -/
def comMat : RawMatrix :=
  ⟨[0, 1, 2, 3], [0, 1, 2, 3],
    [[0, 1/2, 1/4, 1/4], [0, 1, 0, 0], [0, 0, 1, 0], [0, 0, 0, 1]]⟩

/-- The model built from `comMat`. -/
def comModel : MarkovStateModel := ⟨[0, 1, 2, 3], comMat, 1, none, none, none, none⟩

/-- A 2-state reversible (symmetric) matrix. -/
def revMat : RawMatrix := ⟨[0, 1], [0, 1], [[1/2, 1/2], [1/2, 1/2]]⟩

/-- The model built from `revMat`. -/
def revModel : MarkovStateModel := ⟨[0, 1], revMat, 1, none, none, none, none⟩

/-- A small concrete adjacency for the graph-algorithm witnesses: the path
`0 → 1 → 2`. -/
def pathAdj : Nat → Nat → Bool := fun i j => decide ((i, j) ∈ [(0, 1), (1, 2)])

/-- The directed 3-cycle (irreducible, periodic, not reversible). -/
def cycMat : RawMatrix := ⟨[0, 1, 2], [0, 1, 2], [[0, 1, 0], [0, 0, 1], [1, 0, 0]]⟩

/-- The model built from `cycMat`. -/
def cycModel : MarkovStateModel := ⟨[0, 1, 2], cycMat, 1, none, none, none, none⟩

/-! ## Lemmas: model construction -/

/-- Inversion of a successful construction: the constructor stores labels,
matrix and lag time and leaves every derived field uninitialized. -/
theorem mkModel_ok_inv {M : RawMatrix} {lag : Nat} {m : MarkovStateModel}
    (h : mkModel M lag = .ok m) :
    m.states = M.rowLabels ∧ m.transition_matrix = M ∧ m.lagtime = lag ∧
    m.backwardCache = none ∧ m.stationaryCache = none ∧
    m.aperiodicCache = none ∧ m.classesCache = none := by
  unfold mkModel at h
  split at h
  · simp at h
  · split at h
    · simp at h
    · split at h
      · simp at h
      · cases h
        exact ⟨rfl, rfl, rfl, rfl, rfl, rfl, rfl⟩

/-- A construction that passes all three checks succeeds. -/
theorem mkModel_ok_of_valid {M : RawMatrix} {lag : Nat}
    (h1 : is_stochastic_matrix M = true)
    (h2 : M.rowLabels.length = M.colLabels.length)
    (h3 : M.colLabels = M.rowLabels) :
    mkModel M lag = .ok
      { states := M.rowLabels, transition_matrix := M, lagtime := lag } := by
  unfold mkModel
  rw [if_neg (by simp [h1]), if_neg (by simp [h2]), if_neg (by simp [h3])]

/-- Any error of the constructor is `InvalidValue`. -/
theorem mkModel_error_inv {M : RawMatrix} {lag : Nat} {e : Err}
    (h : mkModel M lag = .error e) : e = .invalidValue := by
  unfold mkModel at h
  split at h
  · cases h; rfl
  · split at h
    · cases h; rfl
    · split at h
      · cases h; rfl
      · simp at h

/-- The constructor errors exactly when one of its three checks fails. -/
theorem mkModel_error_iff (M : RawMatrix) (lag : Nat) :
    (∃ e, mkModel M lag = .error e) ↔
      (¬ (is_stochastic_matrix M = true) ∨
       M.rowLabels.length ≠ M.colLabels.length ∨
       M.colLabels ≠ M.rowLabels) := by
  unfold mkModel
  by_cases h1 : is_stochastic_matrix M = true
  · by_cases h2 : M.rowLabels.length = M.colLabels.length
    · by_cases h3 : M.colLabels = M.rowLabels
      · simp [h1, h2, h3]
      · simp [h1, h2, h3]
    · simp [h1, h2]
  · simp [h1]

/-- Unfolding of `is_stochastic_matrix` into the three structural
conditions. -/
theorem is_stochastic_matrix_iff (M : RawMatrix) :
    is_stochastic_matrix M = true ↔
      ((∀ r ∈ M.rows, ∀ x ∈ r, 0 ≤ x) ∧ (∀ r ∈ M.rows, ∀ x ∈ r, x ≤ 1) ∧
        ∀ r ∈ M.rows, npIsClose r.sum 1 = true) := by
  simp [is_stochastic_matrix, List.all_eq_true, and_assoc]

/-! ## Claim C6 (corrected): constructor validation

The claim states the constructor raises `InvalidValue` iff the matrix is not
square, has an out-of-range entry or an off row sum, or the row and column
label *sets* differ.  The source compares the label sequences elementwise
(`(columns == index).all()`), so equal label sets in a different order are
also rejected: `mkModel_labels_counterexample`.  The amended claim
(`mkModel_spec`) replaces "label sets differ" by "label sequences differ". -/

/-- Counterexample to C6 as stated: a square stochastic matrix whose row and
column label sets coincide (only their order differs) is rejected with
`InvalidValue`, while the claimed equivalence demands successful
construction. -/
theorem mkModel_labels_counterexample :
    mkModel mismatchMat 1 = .error .invalidValue ∧
    is_stochastic_matrix mismatchMat = true ∧
    mismatchMat.rowLabels.length = mismatchMat.colLabels.length ∧
    mismatchMat.rowLabels.toFinset = mismatchMat.colLabels.toFinset := by
  refine ⟨by decide, by decide, by decide, by decide⟩

/-- Amended claim C6: construction raises `InvalidValue` exactly when the
matrix is not square, some entry is outside `[0, 1]`, some row sum is not
close to `1`, or the column label sequence differs from the row label
sequence (elementwise, order-sensitive); on success the labels, matrix and
lag time are stored and every derived field starts uninitialized. -/
theorem mkModel_spec (M : RawMatrix) (lag : Nat) :
    ((∃ e, mkModel M lag = .error e) ↔
      (M.rowLabels.length ≠ M.colLabels.length ∨
       (∃ r ∈ M.rows, ∃ x ∈ r, x < 0 ∨ 1 < x) ∨
       (∃ r ∈ M.rows, ¬ (npIsClose r.sum 1 = true)) ∨
       M.colLabels ≠ M.rowLabels)) ∧
    (∀ e, mkModel M lag = .error e → e = .invalidValue) ∧
    (∀ m, mkModel M lag = .ok m →
      m.states = M.rowLabels ∧ m.transition_matrix = M ∧ m.lagtime = lag ∧
      m.backwardCache = none ∧ m.stationaryCache = none ∧
      m.aperiodicCache = none ∧ m.classesCache = none) := by
  refine ⟨?_, fun e h => mkModel_error_inv h, fun m h => mkModel_ok_inv h⟩
  rw [mkModel_error_iff, is_stochastic_matrix_iff]
  have h2 : (¬ ((∀ r ∈ M.rows, ∀ x ∈ r, (0:ℚ) ≤ x) ∧
        (∀ r ∈ M.rows, ∀ x ∈ r, x ≤ 1) ∧
        ∀ r ∈ M.rows, npIsClose r.sum 1 = true)) ↔
      ((∃ r ∈ M.rows, ∃ x ∈ r, x < 0 ∨ 1 < x) ∨
        ∃ r ∈ M.rows, ¬ (npIsClose r.sum 1 = true)) := by
    constructor
    · intro h
      by_cases hp1 : ∀ r ∈ M.rows, ∀ x ∈ r, (0:ℚ) ≤ x
      · by_cases hp2 : ∀ r ∈ M.rows, ∀ x ∈ r, x ≤ 1
        · have hp3 : ¬ ∀ r ∈ M.rows, npIsClose r.sum 1 = true :=
            fun hc => h ⟨hp1, hp2, hc⟩
          push_neg at hp3
          exact Or.inr hp3
        · push_neg at hp2
          obtain ⟨r, hr, x, hx, hgt⟩ := hp2
          exact Or.inl ⟨r, hr, x, hx, Or.inr hgt⟩
      · push_neg at hp1
        obtain ⟨r, hr, x, hx, hlt⟩ := hp1
        exact Or.inl ⟨r, hr, x, hx, Or.inl hlt⟩
    · rintro (⟨r, hr, x, hx, hout⟩ | ⟨r, hr, hc⟩) hs
      · rcases hout with hlt | hgt
        · exact absurd (hs.1 r hr x hx) (not_le.mpr hlt)
        · exact absurd (hs.2.1 r hr x hx) (not_le.mpr hgt)
      · exact hc (hs.2.2 r hr)
  rw [h2]
  constructor
  · rintro ((h | h) | h | h)
    · exact Or.inr (Or.inl h)
    · exact Or.inr (Or.inr (Or.inl h))
    · exact Or.inl h
    · exact Or.inr (Or.inr (Or.inr h))
  · rintro (h | h | h | h)
    · exact Or.inr (Or.inl h)
    · exact Or.inl (Or.inl h)
    · exact Or.inl (Or.inr h)
    · exact Or.inr (Or.inr h)

/-- Witness for `mkModel_spec`: a successful construction (`revMat`) with the
stored fields, and a rejected non-square matrix. -/
theorem mkModel_spec_witness :
    (∀ m, mkModel revMat 1 = .ok m →
      m.states = [0, 1] ∧ m.lagtime = 1 ∧ m.classesCache = none) ∧
    (∃ e, mkModel (⟨[0, 1], [0], [[1], [1]]⟩ : RawMatrix) 1 = .error e) := by
  constructor
  · intro m h
    obtain ⟨hs, _, hl, _, _, _, hc⟩ := (mkModel_spec revMat 1).2.2 m h
    exact ⟨hs, hl, hc⟩
  · exact (mkModel_spec ⟨[0, 1], [0], [[1], [1]]⟩ 1).1.mpr (Or.inl (by decide))

/-! ## Claim C5: reducible chains fail lazily with `InvalidOperation` -/

/-- Claim C5: on a model with more than one communication class both
`stationary_distribution` and `period` raise `InvalidOperation` (whatever the
external eigensolver would have returned), while construction itself never
checks irreducibility: any matrix passing the three structural checks
constructs successfully, so the error surfaces only when the derived quantity
is requested. -/
theorem reducible_lazy_invalid_operation :
    (∀ (m : MarkovStateModel) (v : List ℚ) (c : Nat),
      1 < m.communication_classes.length →
        m.find_stationary_distribution v = .error .invalidOperation ∧
        m.periodProp c = .error .invalidOperation) ∧
    (∀ (M : RawMatrix) (lag : Nat),
      is_stochastic_matrix M = true →
      M.rowLabels.length = M.colLabels.length →
      M.colLabels = M.rowLabels →
      ∃ m, mkModel M lag = .ok m) := by
  constructor
  · intro m v c h
    have hirr : m.is_irreducible = false := by
      simp [MarkovStateModel.is_irreducible]
      omega
    constructor
    · simp [MarkovStateModel.find_stationary_distribution, hirr]
    · simp [MarkovStateModel.periodProp, hirr]
  · intro M lag h1 h2 h3
    exact ⟨_, mkModel_ok_of_valid h1 h2 h3⟩

/-- Witness for `reducible_lazy_invalid_operation`: the identity matrix
constructs fine (three classes) and both accessors fail. -/
theorem reducible_lazy_invalid_operation_witness :
    mkModel idMat 1 = .ok idModel ∧
    1 < idModel.communication_classes.length ∧
    idModel.find_stationary_distribution [1, 1, 1] = .error .invalidOperation ∧
    idModel.periodProp 3 = .error .invalidOperation := by
  refine ⟨by decide, by decide, ?_, ?_⟩
  · exact (reducible_lazy_invalid_operation.1 idModel [1, 1, 1] 3 (by decide)).1
  · exact (reducible_lazy_invalid_operation.1 idModel [1, 1, 1] 3 (by decide)).2

/-! ## Claim C8: `pcca` preconditions -/

/-- Claim C8: `pcca` propagates `InvalidOperation` for a non-reversible chain,
raises `InvalidValue` when the requested number of metastable sets exceeds the
number of states, and otherwise (including `num_sets` equal to the state
count) delegates without raising. -/
theorem pcca_preconditions (m : MarkovStateModel) (v : List ℚ) (k : Nat) :
    (m.is_reversible v = .ok false → m.pcca v k = .error .invalidOperation) ∧
    (m.is_reversible v = .ok true → m.numStates < k →
      m.pcca v k = .error .invalidValue) ∧
    (m.is_reversible v = .ok true → k ≤ m.numStates → m.pcca v k = .ok ()) := by
  refine ⟨fun h => ?_, fun h hk => ?_, fun h hk => ?_⟩
  · simp [MarkovStateModel.pcca, h, Except.bind]
  · simp [MarkovStateModel.pcca, h, Except.bind]
    omega
  · simp [MarkovStateModel.pcca, h, Except.bind]
    omega

/-- Witness for `pcca_preconditions`: the symmetric 2-state chain is
reversible, `pcca 2` succeeds, `pcca 3` fails with `InvalidValue`; the
3-cycle is irreducible but not reversible and `pcca` fails with
`InvalidOperation`. -/
theorem pcca_preconditions_witness :
    revModel.is_reversible [1, 1] = .ok true ∧
    revModel.pcca [1, 1] 2 = .ok () ∧
    revModel.pcca [1, 1] 3 = .error .invalidValue ∧
    cycModel.is_reversible [1, 1, 1] = .ok false ∧
    cycModel.pcca [1, 1, 1] 2 = .error .invalidOperation := by
  refine ⟨by decide, ?_, ?_, by decide, ?_⟩
  · exact (pcca_preconditions revModel [1, 1] 2).2.2 (by decide) (by decide)
  · exact (pcca_preconditions revModel [1, 1] 3).2.1 (by decide) (by decide)
  · exact (pcca_preconditions cycModel [1, 1, 1] 2).1 (by decide)

/-! ## Claims C7 and C9: `restriction` -/

/-- Entry of a mapped list at an in-range position. -/
theorem getD_map {α : Type} (g : Nat → α) :
    ∀ (c : List Nat) (k : Nat) (d : α), k < c.length →
      (c.map g).getD k d = g (c.getD k 0) := by
  intro c
  induction c with
  | nil => intro k d h; cases h
  | cons a t ih =>
    intro k d h
    cases k with
    | zero => rfl
    | succ k =>
      simp only [List.map_cons, List.getD_cons_succ]
      exact ih k d (Nat.lt_of_succ_lt_succ h)

/-- Counterexample to C7 as stated: the closed class `{1, 2, 3}` of a 4-state
model restricts to a model whose states are the class's own labels
`[1, 2, 3]`, not the claimed contiguous zero-based range `[0, 1, 2]`
(pandas `.loc` preserves the selected labels). -/
theorem restriction_relabel_counterexample :
    (⟨[1, 2, 3], true⟩ : CommunicationClass) ∈ restModel.communication_classes ∧
    restModel.restriction ⟨[1, 2, 3], true⟩ = .ok restSubModel ∧
    restSubModel.states ≠ [0, 1, 2] := by
  refine ⟨by decide, by decide, by decide⟩

/-- Amended claim C7: `restriction` fails (assertion) when the class is not
closed; on a closed class it returns a new model whose transition matrix is
the principal submatrix of the original indexed by the class's states (row
and column order preserved), with the class's own labels kept as the states
of the new model (not re-labeled to a zero-based range). -/
theorem restriction_spec (m : MarkovStateModel) (cc : CommunicationClass) :
    (cc.closed = false → m.restriction cc = .error .assertionError) ∧
    (∀ m2, m.restriction cc = .ok m2 →
      m2.states = cc.states ∧
      m2.transition_matrix.rowLabels = cc.states ∧
      m2.transition_matrix.colLabels = cc.states ∧
      m2.lagtime = 1 ∧
      ∀ k l, k < cc.states.length → l < cc.states.length →
        m2.transition_matrix.entry k l =
          m.transition_matrix.atLabel (cc.states.getD k 0) (cc.states.getD l 0)) := by
  constructor
  · intro h
    unfold MarkovStateModel.restriction
    rw [if_neg (by simp [h])]
  · intro m2 h
    unfold MarkovStateModel.restriction at h
    split at h
    · obtain ⟨hs, hm, hl, _⟩ := mkModel_ok_inv h
      refine ⟨by rw [hs], by rw [hm], by rw [hm], hl, ?_⟩
      intro k l hk hl2
      rw [hm]
      unfold RawMatrix.entry
      rw [getD_map _ _ _ _ hk, getD_map _ _ _ _ hl2]
    · simp at h

/-- Witness for `restriction_spec`: the non-closed class `{0}` is rejected,
and the closed class `{1, 2, 3}` yields the exact principal submatrix with
its own labels. -/
theorem restriction_spec_witness :
    restModel.restriction ⟨[0], false⟩ = .error .assertionError ∧
    restSubModel.states = [1, 2, 3] ∧
    restSubModel.transition_matrix.entry 0 1 =
      restModel.transition_matrix.atLabel 1 2 := by
  refine ⟨(restriction_spec restModel ⟨[0], false⟩).1 rfl, ?_, ?_⟩
  · exact ((restriction_spec restModel ⟨[1, 2, 3], true⟩).2 restSubModel (by decide)).1
  · exact ((restriction_spec restModel ⟨[1, 2, 3], true⟩).2 restSubModel
      (by decide)).2.2.2.2 0 1 (by decide) (by decide)

/-- Claim C9: a successful `restriction` always produces a model with lag
time `1` -- the original model's lag time is not propagated (the source calls
the constructor without a `lagtime` argument). -/
theorem restriction_lagtime (m : MarkovStateModel) (cc : CommunicationClass)
    (m2 : MarkovStateModel) (h : m.restriction cc = .ok m2) : m2.lagtime = 1 := by
  unfold MarkovStateModel.restriction at h
  split at h
  · exact (mkModel_ok_inv h).2.2.1
  · simp at h

/-- Witness for `restriction_lagtime`: the original model has lag time `7`,
its restriction has lag time `1`. -/
theorem restriction_lagtime_witness :
    restModel.lagtime = 7 ∧ restSubModel.lagtime = 1 :=
  ⟨rfl, restriction_lagtime restModel ⟨[1, 2, 3], true⟩ restSubModel (by decide)⟩

/-! ## Lemmas: the committor assembly loop -/

/-- The assembly loop produces one value per state. -/
theorem committorAux_length (A B : List Nat) (sol : List ℚ) :
    ∀ (states : List Nat) (c : Nat),
      (committorAux A B sol states c).length = states.length := by
  intro states
  induction states with
  | nil => intro c; rfl
  | cons i rest ih =>
    intro c
    by_cases hA : i ∈ A
    · simp [committorAux, hA, ih]
    · by_cases hB : i ∈ B
      · simp [committorAux, hA, hB, ih]
      · simp [committorAux, hA, hB, ih]

/-- A state belonging to the first set handed to the loop gets value `0`
(this is the branch checked first, so it wins on overlap). -/
theorem committorAux_getD_first (A B : List Nat) (sol : List ℚ) :
    ∀ (states : List Nat) (c k : Nat), k < states.length →
      states.getD k 0 ∈ A → (committorAux A B sol states c).getD k 0 = 0 := by
  intro states
  induction states with
  | nil => intro c k h; cases h
  | cons i rest ih =>
    intro c k hk hmem
    cases k with
    | zero =>
      have hi : i ∈ A := hmem
      simp [committorAux, hi]
    | succ k =>
      have hm : rest.getD k 0 ∈ A := hmem
      have hk2 : k < rest.length := Nat.lt_of_succ_lt_succ hk
      by_cases hA : i ∈ A
      · simp only [committorAux, if_pos hA, List.getD_cons_succ]
        exact ih c k hk2 hm
      · by_cases hB : i ∈ B
        · simp only [committorAux, if_neg hA, if_pos hB, List.getD_cons_succ]
          exact ih c k hk2 hm
        · simp only [committorAux, if_neg hA, if_neg hB, List.getD_cons_succ]
          exact ih (c + 1) k hk2 hm

/-- A state in the second set but not the first gets value `1`. -/
theorem committorAux_getD_second (A B : List Nat) (sol : List ℚ) :
    ∀ (states : List Nat) (c k : Nat), k < states.length →
      states.getD k 0 ∉ A → states.getD k 0 ∈ B →
      (committorAux A B sol states c).getD k 0 = 1 := by
  intro states
  induction states with
  | nil => intro c k h; cases h
  | cons i rest ih =>
    intro c k hk hnA hmB
    cases k with
    | zero =>
      have hi : i ∉ A := hnA
      have hi2 : i ∈ B := hmB
      simp [committorAux, hi, hi2]
    | succ k =>
      have hk2 : k < rest.length := Nat.lt_of_succ_lt_succ hk
      by_cases hA : i ∈ A
      · simp only [committorAux, if_pos hA, List.getD_cons_succ]
        exact ih c k hk2 hnA hmB
      · by_cases hB : i ∈ B
        · simp only [committorAux, if_neg hA, if_pos hB, List.getD_cons_succ]
          exact ih c k hk2 hnA hmB
        · simp only [committorAux, if_neg hA, if_neg hB, List.getD_cons_succ]
          exact ih (c + 1) k hk2 hnA hmB

/-- Reading a list back off positionally. -/
theorem map_getD_range {α : Type} (l : List α) (d : α) :
    (List.range l.length).map (fun k => l.getD k d) = l := by
  induction l with
  | nil => rfl
  | cons a t ih =>
    rw [List.length_cons, List.range_succ_eq_map, List.map_cons, List.map_map]
    refine congrArg₂ List.cons rfl ?_
    have hmc : List.map ((fun k => (a :: t).getD k d) ∘ Nat.succ) (List.range t.length)
        = List.map (fun k => t.getD k d) (List.range t.length) :=
      List.map_congr_left (fun k _ => by simp)
    rw [hmc, ih]

/-- The values the loop places outside `A ∪ B` are exactly the successive
solver components, starting at index `c`. -/
theorem committorAux_restrict (A B : List Nat) (sol : List ℚ) :
    ∀ (states : List Nat) (c : Nat),
      restrictToC states A B (committorAux A B sol states c) =
        (List.range (complementC states A B).length).map
          (fun t => sol.getD (c + t) 0) := by
  intro states
  induction states with
  | nil => intro c; rfl
  | cons i rest ih =>
    intro c
    by_cases hA : i ∈ A
    · have hcond : (!(decide (i ∈ A)) && !(decide (i ∈ B))) = false := by
        simp [hA]
      simp only [committorAux, if_pos hA, restrictToC, List.zip_cons_cons,
        List.filter_cons, hcond, complementC, Bool.false_eq_true, if_false]
      exact ih c
    · by_cases hB : i ∈ B
      · have hcond : (!(decide (i ∈ A)) && !(decide (i ∈ B))) = false := by
          simp [hB]
        simp only [committorAux, if_neg hA, if_pos hB, restrictToC,
          List.zip_cons_cons, List.filter_cons, hcond, complementC,
          Bool.false_eq_true, if_false]
        exact ih c
      · have hcond : (!(decide (i ∈ A)) && !(decide (i ∈ B))) = true := by
          simp [hA, hB]
        simp only [committorAux, if_neg hA, if_neg hB, restrictToC,
          List.zip_cons_cons, List.filter_cons, hcond, complementC, if_true,
          List.map_cons, List.length_cons, List.range_succ_eq_map,
          List.map_map]
        refine congrArg₂ List.cons (by simp) ?_
        have ihx := ih (c + 1)
        simp only [restrictToC, complementC] at ihx
        rw [ihx]
        refine List.map_congr_left ?_
        intro t _
        simp only [Function.comp]
        congr 1
        omega

/-- When the complement is empty the loop never consults the solver output:
the result is the same for every `sol`. -/
theorem committorAux_sol_irrelevant (A B : List Nat) :
    ∀ (states : List Nat) (c1 c2 : Nat) (sol1 sol2 : List ℚ),
      complementC states A B = [] →
      committorAux A B sol1 states c1 = committorAux A B sol2 states c2 := by
  intro states
  induction states with
  | nil => intro c1 c2 sol1 sol2 _; rfl
  | cons i rest ih =>
    intro c1 c2 sol1 sol2 hC
    by_cases hA : i ∈ A
    · have hrest : complementC rest A B = [] := by
        simpa [complementC, List.filter_cons, hA] using hC
      simp only [committorAux, if_pos hA]
      rw [ih c1 c2 sol1 sol2 hrest]
    · by_cases hB : i ∈ B
      · have hrest : complementC rest A B = [] := by
          simpa [complementC, List.filter_cons, hA, hB] using hC
        simp only [committorAux, if_neg hA, if_pos hB]
        rw [ih c1 c2 sol1 sol2 hrest]
      · exfalso
        have : (!(decide (i ∈ A)) && !(decide (i ∈ B))) = true := by simp [hA, hB]
        simp [complementC, List.filter_cons, this] at hC

/-! ## Claim C1: forward committors -/

/-- Claim C1: whenever the solver output `sol` solves the source's linear
system `(T - I)_{C,C} x = -(T - I)_{C,B} · 1` over the complement
`C = states - (A ∪ B)`, the forward committor vector is `0` on `A`, `1` on
`B`, and on `C` it consists of the corresponding solution components (so the
restriction of the result to `C` solves that system); when `C` is empty the
result does not depend on the solver output at all (no linear system is
solved). -/
theorem forward_committors_spec (m : MarkovStateModel) (A B : List Nat)
    (sol : List ℚ)
    (hLabels : m.states = m.transition_matrix.rowLabels)
    (hdisj : ∀ s, s ∈ A → s ∉ B)
    (hsol : SolvesCommittorSystem m.transition_matrix A B sol) :
    (m.forward_committors A B sol).length = m.states.length ∧
    (∀ k, k < m.states.length → m.states.getD k 0 ∈ A →
      (m.forward_committors A B sol).getD k 0 = 0) ∧
    (∀ k, k < m.states.length → m.states.getD k 0 ∈ B →
      (m.forward_committors A B sol).getD k 0 = 1) ∧
    restrictToC m.states A B (m.forward_committors A B sol) = sol ∧
    SolvesCommittorSystem m.transition_matrix A B
      (restrictToC m.states A B (m.forward_committors A B sol)) ∧
    (complementC m.states A B = [] →
      ∀ sol2, m.forward_committors A B sol2 = m.forward_committors A B sol) := by
  have hres : restrictToC m.states A B (m.forward_committors A B sol) = sol := by
    unfold MarkovStateModel.forward_committors committors
    rw [committorAux_restrict]
    have hlen : sol.length = (complementC m.states A B).length := by
      rw [hLabels]
      exact hsol.1
    rw [← hlen]
    simpa using map_getD_range sol 0
  refine ⟨committorAux_length A B sol m.states 0,
    fun k hk hmem => committorAux_getD_first A B sol m.states 0 k hk hmem,
    fun k hk hmem => committorAux_getD_second A B sol m.states 0 k hk
      (fun hA => hdisj _ hA hmem) hmem,
    hres, by rw [hres]; exact hsol,
    fun hC sol2 => committorAux_sol_irrelevant A B m.states 0 0 sol2 sol hC⟩

/-- Witness for `forward_committors_spec`: the engineered 4-state matrix with
`T[0,1] = T[0,2] + T[0,3]`, `A = {1}`, `B = {2, 3}`: the solver solution of
the 1-by-1 system over `C = {0}` is `1/2` and the committor vector is
`[0.5, 0, 1, 1]`. -/
theorem forward_committors_spec_witness :
    SolvesCommittorSystem comMat [1] [2, 3] [1/2] ∧
    (comModel.forward_committors [1] [2, 3] [1/2]).getD 1 0 = 0 ∧
    comModel.forward_committors [1] [2, 3] [1/2] = [1/2, 0, 1, 1] := by
  refine ⟨by decide, ?_, by decide⟩
  exact (forward_committors_spec comModel [1] [2, 3] [1/2] rfl (by decide)
    (by decide)).2.1 1 (by decide) (by decide)

/-! ## Claim C10 (corrected): overlapping committor sets

Neither committor checks that `A` and `B` are disjoint, and no error arises
from the overlap itself.  But `backward_commitors` evaluates
`self.backward_transition_matrix` before the assembly loop, and that property
computes the stationary distribution, which raises `InvalidOperation` on any
reducible chain -- so on a reducible model `backward_commitors` raises
instead of returning a vector, refuting the claim's for-every-model backward
conclusion (`committors_overlap_counterexample`).  The amendment restricts
the backward conclusion to models whose chain is irreducible and records the
reducible outcome explicitly. -/

/-- Counterexample to C10 as stated: on the reducible `comModel` (four
communication classes) with overlapping sets `{1, 2}` and `{2, 3}` (common
state `2`), `backward_commitors` raises `InvalidOperation` -- it does not
return a vector assigning `0` to the overlap state. -/
theorem committors_overlap_counterexample :
    (2 ∈ [1, 2] ∧ 2 ∈ [2, 3]) ∧
    1 < comModel.communication_classes.length ∧
    comModel.backward_commitors [1, 2] [2, 3] [1, 1, 1, 1] [0] =
      .error .invalidOperation := by
  refine ⟨⟨by decide, by decide⟩, by decide, by decide⟩

/-- Amended claim C10: `_commitors` never checks that `A` and `B` are
disjoint, and neither committor raises an error because of the overlap.  A
state in both sets gets value `0` from `forward_committors` (the first set
checked wins).  `backward_commitors` first evaluates the backward transition
matrix: on a reducible chain this raises `InvalidOperation` (regardless of
overlap, before any assembly); whenever the chain is irreducible it returns
the assembled vector, which likewise assigns `0` to the overlap state (the
sets are swapped before the precedence check, so the first set checked there
is again the one yielding `0`). -/
theorem committors_overlap (m : MarkovStateModel) (A B : List Nat) (s k : Nat)
    (v sol sol2 : List ℚ) (hA : s ∈ A) (hB : s ∈ B)
    (hk : k < m.states.length) (hks : m.states.getD k 0 = s) :
    (m.forward_committors A B sol).getD k 0 = 0 ∧
    (m.forward_committors A B sol).length = m.states.length ∧
    (m.is_irreducible = true →
      m.backward_commitors A B v sol2 = .ok (committors m.states B A sol2) ∧
      (committors m.states B A sol2).getD k 0 = 0 ∧
      (committors m.states B A sol2).length = m.states.length) ∧
    (m.is_irreducible = false →
      m.backward_commitors A B v sol2 = .error .invalidOperation) := by
  refine ⟨?_, committorAux_length A B sol m.states 0, fun hirr => ⟨?_, ?_, ?_⟩,
    fun hirr => ?_⟩
  · exact committorAux_getD_first A B sol m.states 0 k hk (by rw [hks]; exact hA)
  · simp [MarkovStateModel.backward_commitors,
      MarkovStateModel.backward_transition_matrix,
      MarkovStateModel.find_stationary_distribution, hirr, Except.map]
  · exact committorAux_getD_first B A sol2 m.states 0 k hk (by rw [hks]; exact hB)
  · exact committorAux_length B A sol2 m.states 0
  · simp [MarkovStateModel.backward_commitors,
      MarkovStateModel.backward_transition_matrix,
      MarkovStateModel.find_stationary_distribution, hirr, Except.map]

/-- Witness for `committors_overlap`: the irreducible 3-cycle with
overlapping sets `{0, 1}` and `{1, 2}` (common state `1`, so `A ∪ B` covers
everything and the solver output is empty): both committors assign `0` to the
overlap state, the backward one through a successful backward-matrix
evaluation. -/
theorem committors_overlap_witness :
    (cycModel.forward_committors [0, 1] [1, 2] []).getD 1 0 = 0 ∧
    cycModel.backward_commitors [0, 1] [1, 2] [1, 1, 1] [] =
      .ok (committors [0, 1, 2] [1, 2] [0, 1] []) ∧
    (committors [0, 1, 2] [1, 2] [0, 1] []).getD 1 0 = 0 := by
  have h := committors_overlap cycModel [0, 1] [1, 2] 1 1 [1, 1, 1] [] []
    (by decide) (by decide) (by decide) (by decide)
  have h2 := h.2.2.1 (by decide)
  exact ⟨h.1, h2.1, h2.2.1⟩

/-! ## Lemmas: flag lists -/

/-- Setting an in-range flag makes it read back `true`. -/
theorem getD_set_self : ∀ (l : List Bool) (i : Nat), i < l.length →
    (l.set i true).getD i false = true := by
  intro l
  induction l with
  | nil => intro i h; cases h
  | cons a t ih =>
    intro i h
    cases i with
    | zero => rfl
    | succ i => exact ih i (Nat.lt_of_succ_lt_succ h)

/-- Setting a flag leaves every other position unchanged. -/
theorem getD_set_ne : ∀ (l : List Bool) (i j : Nat), j ≠ i →
    (l.set i true).getD j false = l.getD j false := by
  intro l
  induction l with
  | nil => intro i j _; rfl
  | cons a t ih =>
    intro i j hne
    cases i with
    | zero =>
      cases j with
      | zero => exact absurd rfl hne
      | succ j => rfl
    | succ i =>
      cases j with
      | zero => rfl
      | succ j => exact ih i j (fun h => hne (by rw [h]))

/-- Out-of-range reads are `false`. -/
theorem getD_eq_false_of_le : ∀ (l : List Bool) (j : Nat), l.length ≤ j →
    l.getD j false = false := by
  intro l
  induction l with
  | nil => intro j _; rfl
  | cons a t ih =>
    intro j h
    cases j with
    | zero => cases h
    | succ j => exact ih j (Nat.le_of_succ_le_succ h)

/-- Setting a flag cannot increase the number of unset flags. -/
theorem countFalse_set_le : ∀ (l : List Bool) (i : Nat),
    countFalse (l.set i true) ≤ countFalse l := by
  intro l
  induction l with
  | nil => intro i; exact Nat.le_refl _
  | cons a t ih =>
    intro i
    cases i with
    | zero =>
      simp only [List.set, countFalse, List.countP_cons]
      have : (!true) = false := rfl
      simp only [this, Bool.false_eq_true, if_false, Nat.add_zero]
      exact Nat.le_add_right_of_le (Nat.le_refl _)
    | succ i =>
      simp only [List.set, countFalse, List.countP_cons]
      exact Nat.add_le_add_right (ih i) _

/-- Setting an unset in-range flag decrements the number of unset flags. -/
theorem countFalse_set_eq : ∀ (l : List Bool) (i : Nat), i < l.length →
    l.getD i false = false →
    countFalse (l.set i true) + 1 = countFalse l := by
  intro l
  induction l with
  | nil => intro i h; cases h
  | cons a t ih =>
    intro i hi hv
    cases i with
    | zero =>
      have ha : a = false := hv
      subst ha
      simp [List.set, countFalse, List.countP_cons]
    | succ i =>
      simp only [List.set, countFalse, List.countP_cons]
      have := ih i (Nat.lt_of_succ_lt_succ hi) hv
      simp only [countFalse] at this
      omega

/-- Pointwise implication of set flags bounds the unset count. -/
theorem countFalse_mono : ∀ (a b : List Bool), a.length = b.length →
    (∀ j, a.getD j false = true → b.getD j false = true) →
    countFalse b ≤ countFalse a := by
  intro a
  induction a with
  | nil =>
    intro b hlen _
    cases b with
    | nil => exact Nat.le_refl _
    | cons x xs => cases hlen
  | cons x xs ih =>
    intro b hlen hmono
    cases b with
    | nil => cases hlen
    | cons y ys =>
      have htail : countFalse ys ≤ countFalse xs :=
        ih ys (Nat.succ.inj hlen) (fun j h => hmono (j + 1) h)
      have hhead : (if (!y) = true then 1 else 0) ≤
          (if (!x) = true then 1 else 0) := by
        cases x with
        | true =>
          have : y = true := hmono 0 rfl
          simp [this]
        | false => cases y <;> simp
      simp only [countFalse, List.countP_cons] at htail ⊢
      omega

/-! ## Lemmas: reachability -/

/-- Weakening the admissibility predicate preserves reachability. -/
theorem Reach.mono {adj : Nat → Nat → Bool} {ok1 ok2 : Nat → Prop}
    {root v : Nat} (hok : ∀ w, ok1 w → ok2 w)
    (h : Reach adj ok1 root v) : Reach adj ok2 root v := by
  induction h with
  | base => exact .base
  | step _ hadj hokv ih => exact .step ih hadj (hok _ hokv)

/-- Reachability composes. -/
theorem Reach.trans_through {adj : Nat → Nat → Bool} {ok : Nat → Prop}
    {root u v : Nat} (h1 : Reach adj ok root u) (h2 : Reach adj ok u v) :
    Reach adj ok root v := by
  induction h2 with
  | base => exact h1
  | step _ hadj hokv ih => exact .step ih hadj hokv

/-! ## Lemmas: depth-first search -/

/-- Members of the result are flagged afterwards. -/
theorem KidsOut.kids_mem_true {adj : Nat → Nat → Bool} {n root : Nat}
    {flags : List Bool} {vs res : List Nat} {out : List Bool}
    (K : KidsOut adj n root flags vs res out) {j : Nat} (h : j ∈ res) :
    out.getD j false = true := by
  rw [K.mem_out]
  simp [h]

/-- Flags already set stay set. -/
theorem KidsOut.kids_mono {adj : Nat → Nat → Bool} {n root : Nat}
    {flags : List Bool} {vs res : List Nat} {out : List Bool}
    (K : KidsOut adj n root flags vs res out) {j : Nat}
    (h : flags.getD j false = true) : out.getD j false = true := by
  rw [K.mem_out, h]
  rfl

/-- Fresh flags in the output were either set before or belong to the
result (contrapositive of `mem_out`). -/
theorem KidsOut.kids_unflagged_before {adj : Nat → Nat → Bool}
    {n root : Nat} {flags : List Bool} {vs res : List Nat} {out : List Bool}
    (K : KidsOut adj n root flags vs res out) {j : Nat}
    (h : out.getD j false = false) : flags.getD j false = false := by
  by_contra hc
  have := K.kids_mono (eq_true_of_ne_false hc)
  rw [this] at h
  cases h

/-- Members of a depth-first search result are flagged afterwards. -/
theorem DfsOut.dfs_mem_true {adj : Nat → Nat → Bool} {n root : Nat}
    {flags : List Bool} {res : List Nat} {out : List Bool}
    (D : DfsOut adj n root flags res out) {j : Nat} (h : j ∈ res) :
    out.getD j false = true := by
  rw [D.mem_out]
  simp [h]

/-- Depth-first search only sets flags. -/
theorem DfsOut.dfs_mono {adj : Nat → Nat → Bool} {n root : Nat}
    {flags : List Bool} {res : List Nat} {out : List Bool}
    (D : DfsOut adj n root flags res out) {j : Nat}
    (h : flags.getD j false = true) : out.getD j false = true := by
  rw [D.mem_out, h]
  rfl

/-- A node left unflagged by a depth-first search was unflagged before. -/
theorem DfsOut.dfs_unflagged_before {adj : Nat → Nat → Bool}
    {n root : Nat} {flags : List Bool} {res : List Nat} {out : List Bool}
    (D : DfsOut adj n root flags res out) {j : Nat}
    (h : out.getD j false = false) : flags.getD j false = false := by
  by_contra hc
  have := D.dfs_mono (eq_true_of_ne_false hc)
  rw [this] at h
  cases h

/-- The root belongs to the result (it is the last element). -/
theorem DfsOut.root_mem {adj : Nat → Nat → Bool} {n root : Nat}
    {flags : List Bool} {res : List Nat} {out : List Bool}
    (D : DfsOut adj n root flags res out) : root ∈ res :=
  List.mem_of_mem_getLast? (Option.mem_def.mpr D.last)

/-- Specification of the child loop of `depth_first_search`: whenever the
recursive call satisfies `DfsOut` on every unflagged in-range vertex (given
enough fuel), one pass of the loop satisfies `KidsOut`. -/
theorem kidsLoop_spec (adj : Nat → Nat → Bool) (n root fuel : Nat)
    (rec : Nat → List Bool → List Nat × List Bool)
    (hrec : ∀ v flags, v < n → flags.length = n →
      flags.getD v false = false → countFalse (flags.set v true) < fuel →
      DfsOut adj n v flags (rec v flags).1 (rec v flags).2) :
    ∀ (vs : List Nat) (flags : List Bool), (∀ v ∈ vs, v < n) →
      flags.length = n → countFalse flags ≤ fuel →
      KidsOut adj n root flags vs (kidsLoop adj root rec vs flags).1
        (kidsLoop adj root rec vs flags).2 := by
  intro vs
  induction vs with
  | nil =>
    intro flags _ _ _
    refine ⟨rfl, ?_, List.nodup_nil, ?_, ?_, ?_, ?_⟩
    · intro j; simp [kidsLoop]
    · intro j hj; cases hj
    · intro u hu; cases hu
    · intro w hw; cases hw
    · intro w hw; cases hw
  | cons v vs ih =>
    intro flags hvs hlen hcf
    have hv : v < n := hvs v (List.mem_cons_self v vs)
    have hvs2 : ∀ w ∈ vs, w < n := fun w hw => hvs w (List.mem_cons_of_mem v hw)
    by_cases hcond : (adj root v && !(flags.getD v false)) = true
    · have hboth : adj root v = true ∧ (!(flags.getD v false)) = true := by
        rw [← Bool.and_eq_true]
        exact hcond
      have hadj : adj root v = true := hboth.1
      have hfl : flags.getD v false = false := by
        have hb := hboth.2
        cases hx : flags.getD v false
        · rfl
        · rw [hx] at hb; cases hb
      have hvlen : v < flags.length := by omega
      have hset : countFalse (flags.set v true) + 1 = countFalse flags :=
        countFalse_set_eq flags v hvlen hfl
      have hfuel : countFalse (flags.set v true) < fuel := by omega
      have D := hrec v flags hv hlen hfl hfuel
      have hplen : (rec v flags).2.length = n := by rw [D.len, hlen]
      have hpcf : countFalse (rec v flags).2 ≤ fuel := by
        have hmono : ∀ j, (flags.set v true).getD j false = true →
            (rec v flags).2.getD j false = true := by
          intro j hj
          by_cases hjv : j = v
          · subst hjv
            exact D.dfs_mem_true D.root_mem
          · rw [getD_set_ne flags v j hjv] at hj
            exact D.dfs_mono hj
        have hle : countFalse (rec v flags).2 ≤ countFalse (flags.set v true) :=
          countFalse_mono (flags.set v true) (rec v flags).2
            (by rw [D.len, List.length_set]) hmono
        omega
      have K := ih (rec v flags).2 hvs2 hplen hpcf
      have hkl : kidsLoop adj root rec (v :: vs) flags =
          ((rec v flags).1 ++ (kidsLoop adj root rec vs (rec v flags).2).1,
            (kidsLoop adj root rec vs (rec v flags).2).2) := by
        simp only [kidsLoop]
        rw [if_pos hcond]
      rw [hkl]
      refine ⟨?_, ?_, ?_, ?_, ?_, ?_, ?_⟩
      · rw [K.len, D.len]
      · intro j
        rw [K.mem_out j, D.mem_out j]
        by_cases hj1 : j ∈ (rec v flags).1 <;>
          by_cases hj2 : j ∈ (kidsLoop adj root rec vs (rec v flags).2).1 <;>
          simp [hj1, hj2, List.mem_append]
      · rw [List.nodup_append]
        refine ⟨D.nodup, K.nodup, ?_⟩
        intro a ha1 ha2
        have h1 : (rec v flags).2.getD a false = true := D.dfs_mem_true ha1
        have h2 : (rec v flags).2.getD a false = false := (K.fresh a ha2).1
        rw [h1] at h2
        cases h2
      · intro j hj
        rcases List.mem_append.mp hj with hj | hj
        · by_cases hjv : j = v
          · subst hjv
            exact ⟨hfl, hv⟩
          · exact D.fresh j hj hjv
        · exact ⟨D.dfs_unflagged_before (K.fresh j hj).1, (K.fresh j hj).2⟩
      · intro u hu w hw hadj2
        rcases List.mem_append.mp hu with hu | hu
        · exact K.kids_mono (D.closure u hu w hw hadj2)
        · exact K.closure u hu w hw hadj2
      · intro w hw hadjw
        rcases List.mem_cons.mp hw with hw | hw
        · subst hw
          exact K.kids_mono (D.dfs_mem_true D.root_mem)
        · exact K.covered w hw hadjw
      · intro w hw
        rcases List.mem_append.mp hw with hw | hw
        · have hrv : Reach adj (fun x => x < n ∧ flags.getD x false = false)
              root v := .step .base hadj ⟨hv, hfl⟩
          exact Reach.trans_through hrv (D.sound w hw)
        · refine Reach.mono ?_ (K.sound w hw)
          intro x hx
          exact ⟨hx.1, D.dfs_unflagged_before hx.2⟩
    · have hkl : kidsLoop adj root rec (v :: vs) flags =
          kidsLoop adj root rec vs flags := by
        simp only [kidsLoop]
        rw [if_neg hcond]
      have K := ih flags hvs2 hlen hcf
      rw [hkl]
      refine ⟨K.len, K.mem_out, K.nodup, K.fresh, K.closure, ?_, K.sound⟩
      intro w hw hadjw
      rcases List.mem_cons.mp hw with hw | hw
      · subst hw
        have hflt : flags.getD w false = true := by
          cases hx : flags.getD w false
          · exact absurd (by rw [Bool.and_eq_true]; exact ⟨hadjw, by rw [hx]; rfl⟩)
              hcond
          · rfl
        exact K.kids_mono hflt
      · exact K.covered w hw hadjw

/-- Specification of the fuelled depth-first search: with fuel strictly above
the number of unset flags after flagging the root, `dfsF` satisfies
`DfsOut`. -/
theorem dfsF_spec (adj : Nat → Nat → Bool) (n : Nat) :
    ∀ (fuel root : Nat) (flags : List Bool), root < n → flags.length = n →
      countFalse (flags.set root true) < fuel →
      DfsOut adj n root flags (dfsF adj n fuel root flags).1
        (dfsF adj n fuel root flags).2 := by
  intro fuel
  induction fuel with
  | zero =>
    intro root flags _ _ h
    cases h
  | succ fuel ih =>
    intro root flags hroot hlen hfuel
    have hrlen : root < flags.length := by omega
    have hK := kidsLoop_spec adj n root fuel (dfsF adj n fuel)
      (fun v fl hv hl _ hc => ih v fl hv hl hc)
      (List.range n) (flags.set root true)
      (fun w hw => List.mem_range.mp hw)
      (by rw [List.length_set]; exact hlen)
      (Nat.le_of_lt_succ hfuel)
    have hd : dfsF adj n (fuel + 1) root flags =
        ((kidsLoop adj root (dfsF adj n fuel) (List.range n)
            (flags.set root true)).1 ++ [root],
          (kidsLoop adj root (dfsF adj n fuel) (List.range n)
            (flags.set root true)).2) := by
      simp only [dfsF]
    rw [hd]
    refine ⟨?_, ?_, List.getLast?_concat _, ?_, ?_, ?_, ?_⟩
    · rw [hK.len, List.length_set]
    · intro j
      rw [hK.mem_out j]
      by_cases hjr : j = root
      · subst hjr
        rw [getD_set_self flags j hrlen]
        simp [List.mem_append]
      · rw [getD_set_ne flags root j hjr]
        congr 1
        exact decide_eq_decide.mpr (by simp [List.mem_append, hjr])
    · rw [List.nodup_append]
      refine ⟨hK.nodup, List.nodup_singleton root, ?_⟩
      intro a ha1 ha2
      have h1 : (flags.set root true).getD a false = false := (hK.fresh a ha1).1
      have h2 : a = root := List.mem_singleton.mp ha2
      rw [h2, getD_set_self flags root hrlen] at h1
      cases h1
    · intro j hj hjr
      rcases List.mem_append.mp hj with hj | hj
      · have h1 := hK.fresh j hj
        rw [getD_set_ne flags root j hjr] at h1
        exact h1
      · exact absurd (List.mem_singleton.mp hj) hjr
    · intro u hu w hw hadj2
      rcases List.mem_append.mp hu with hu | hu
      · exact hK.closure u hu w hw hadj2
      · have hur : u = root := List.mem_singleton.mp hu
        subst hur
        exact hK.covered w (List.mem_range.mpr hw) hadj2
    · intro w hw
      rcases List.mem_append.mp hw with hw | hw
      · refine Reach.mono ?_ (hK.sound w hw)
        intro x hx
        refine ⟨hx.1, ?_⟩
        by_cases hxr : x = root
        · subst hxr
          rw [getD_set_self flags x hrlen] at hx
          cases hx.2
        · rw [getD_set_ne flags root x hxr] at hx
          exact hx.2
      · have hwr : w = root := List.mem_singleton.mp hw
        subst hwr
        exact .base

/-- The fuel chosen by `depth_first_search` always dominates the recursion
depth, so the source's recursion is captured exactly. -/
theorem depth_first_search_out (adj : Nat → Nat → Bool) (n root : Nat)
    (flags : List Bool) (hroot : root < n) (hlen : flags.length = n) :
    DfsOut adj n root flags (depth_first_search adj n root flags).1
      (depth_first_search adj n root flags).2 := by
  unfold depth_first_search
  exact dfsF_spec adj n (countFalse flags + 1) root flags hroot hlen
    (Nat.lt_succ_of_le (countFalse_set_le flags root))

/-- Completeness (the white-path property): every node reachable from the
root through initially-unflagged vertices ends up in the result. -/
theorem DfsOut.complete {adj : Nat → Nat → Bool} {n root : Nat}
    {flags : List Bool} {res : List Nat} {out : List Bool}
    (D : DfsOut adj n root flags res out) :
    ∀ v, Reach adj (fun w => w < n ∧ flags.getD w false = false) root v →
      v ∈ res := by
  intro v h
  induction h with
  | base => exact D.root_mem
  | step _ hadj hok ih =>
    have hout := D.closure _ ih _ hok.1 hadj
    rw [D.mem_out, hok.2] at hout
    simpa using hout

/-! ## Claim C4: `depth_first_search` -/

/-- Claim C4: `depth_first_search` returns the post-order sequence of exactly
the nodes reachable from `root` through initially-unflagged vertices (the
traversal's own visiting order, certified here by the set characterization,
the absence of duplicates and the root as last element), and on return the
flag of every returned node is set. -/
theorem depth_first_search_spec (adj : Nat → Nat → Bool) (n root : Nat)
    (flags : List Bool) (hroot : root < n) (hlen : flags.length = n) :
    (∀ v, v ∈ (depth_first_search adj n root flags).1 ↔
      Reach adj (fun w => w < n ∧ flags.getD w false = false) root v) ∧
    (depth_first_search adj n root flags).1.getLast? = some root ∧
    (depth_first_search adj n root flags).1.Nodup ∧
    ∀ v ∈ (depth_first_search adj n root flags).1,
      (depth_first_search adj n root flags).2.getD v false = true := by
  have D := depth_first_search_out adj n root flags hroot hlen
  exact ⟨fun v => ⟨D.sound v, D.complete v⟩, D.last, D.nodup,
    fun v hv => D.dfs_mem_true hv⟩

/-- Witness for `depth_first_search_spec` on the path `0 → 1 → 2`: the
returned sequence ends in the root `0`, contains the transitively reachable
node `2`, and the flags of the returned nodes are set. -/
theorem depth_first_search_spec_witness :
    (depth_first_search pathAdj 3 0 [false, false, false]).1.getLast? = some 0 ∧
    2 ∈ (depth_first_search pathAdj 3 0 [false, false, false]).1 ∧
    (depth_first_search pathAdj 3 0 [false, false, false]).2.getD 2 false = true := by
  have h := depth_first_search_spec pathAdj 3 0 [false, false, false]
    (by decide) (by decide)
  have h1 : Reach pathAdj
      (fun w => w < 3 ∧ ([false, false, false] : List Bool).getD w false = false)
      0 1 := .step .base (by decide) ⟨by decide, rfl⟩
  have h2 : Reach pathAdj
      (fun w => w < 3 ∧ ([false, false, false] : List Bool).getD w false = false)
      0 2 := .step h1 (by decide) ⟨by decide, rfl⟩
  have hmem : 2 ∈ (depth_first_search pathAdj 3 0 [false, false, false]).1 :=
    (h.1 2).mpr h2
  exact ⟨h.2.1, hmem, h.2.2.2 2 hmem⟩

/-! ## Lemmas: the two passes of `strongly_connected_components` -/

/-- Members of a pass result are flagged afterwards. -/
theorem PassOut.pass_mem_true {n : Nat} {flags : List Bool} {nodes lst : List Nat}
    {out : List Bool} (P : PassOut n flags nodes lst out) {j : Nat}
    (h : j ∈ lst) : out.getD j false = true := by
  rw [P.mem_out]
  simp [h]

/-- A pass only sets flags. -/
theorem PassOut.pass_mono {n : Nat} {flags : List Bool} {nodes lst : List Nat}
    {out : List Bool} (P : PassOut n flags nodes lst out) {j : Nat}
    (h : flags.getD j false = true) : out.getD j false = true := by
  rw [P.mem_out, h]
  rfl

/-- A node left unflagged by a pass was unflagged before. -/
theorem PassOut.pass_unflagged_before {n : Nat} {flags : List Bool}
    {nodes lst : List Nat} {out : List Bool}
    (P : PassOut n flags nodes lst out) {j : Nat}
    (h : out.getD j false = false) : flags.getD j false = false := by
  by_contra hc
  have := P.pass_mono (eq_true_of_ne_false hc)
  rw [this] at h
  cases h

/-- Specification of the first pass of `strongly_connected_components`. -/
theorem sccPass1_spec (adj : Nat → Nat → Bool) (n : Nat) :
    ∀ (nodes : List Nat) (flags : List Bool), (∀ v ∈ nodes, v < n) →
      flags.length = n →
      PassOut n flags nodes (sccPass1 adj n nodes flags).1
        (sccPass1 adj n nodes flags).2 := by
  intro nodes
  induction nodes with
  | nil =>
    intro flags _ _
    refine ⟨rfl, ?_, List.nodup_nil, ?_, ?_⟩
    · intro j; simp [sccPass1]
    · intro j hj; cases hj
    · intro v hv; cases hv
  | cons node rest ih =>
    intro flags hns hlen
    have hnode : node < n := hns node (List.mem_cons_self node rest)
    have hrest : ∀ v ∈ rest, v < n :=
      fun v hv => hns v (List.mem_cons_of_mem node hv)
    by_cases hfl : flags.getD node false = true
    · have hkl : sccPass1 adj n (node :: rest) flags =
          sccPass1 adj n rest flags := by
        simp only [sccPass1]
        rw [if_pos hfl]
      have K := ih flags hrest hlen
      rw [hkl]
      refine ⟨K.len, K.mem_out, K.nodup, K.fresh, ?_⟩
      intro v hv
      rcases List.mem_cons.mp hv with hv | hv
      · subst hv
        exact K.pass_mono hfl
      · exact K.covered v hv
    · have hflf : flags.getD node false = false := by
        cases hx : flags.getD node false
        · rfl
        · exact absurd hx hfl
      have D := depth_first_search_out adj n node flags hnode hlen
      have hplen : (depth_first_search adj n node flags).2.length = n := by
        rw [D.len, hlen]
      have K := ih (depth_first_search adj n node flags).2 hrest hplen
      have hkl : sccPass1 adj n (node :: rest) flags =
          ((depth_first_search adj n node flags).1 ++
              (sccPass1 adj n rest (depth_first_search adj n node flags).2).1,
            (sccPass1 adj n rest (depth_first_search adj n node flags).2).2) := by
        simp only [sccPass1]
        rw [if_neg hfl]
      rw [hkl]
      refine ⟨?_, ?_, ?_, ?_, ?_⟩
      · rw [K.len, D.len]
      · intro j
        rw [K.mem_out j, D.mem_out j]
        by_cases hj1 : j ∈ (depth_first_search adj n node flags).1 <;>
          by_cases hj2 : j ∈
            (sccPass1 adj n rest (depth_first_search adj n node flags).2).1 <;>
          simp [hj1, hj2, List.mem_append]
      · rw [List.nodup_append]
        refine ⟨D.nodup, K.nodup, ?_⟩
        intro a ha1 ha2
        have h1 := D.dfs_mem_true ha1
        have h2 := (K.fresh a ha2).1
        rw [h1] at h2
        cases h2
      · intro j hj
        rcases List.mem_append.mp hj with hj | hj
        · by_cases hjn : j = node
          · subst hjn
            exact ⟨hflf, hnode⟩
          · exact D.fresh j hj hjn
        · exact ⟨D.dfs_unflagged_before (K.fresh j hj).1, (K.fresh j hj).2⟩
      · intro v hv
        rcases List.mem_cons.mp hv with hv | hv
        · subst hv
          exact K.pass_mono (D.dfs_mem_true D.root_mem)
        · exact K.covered v hv

/-- The second pass is the first pass with the results grouped per
depth-first search call: flattening the components gives the first pass's
combined list, and the final flags coincide. -/
theorem sccPass2_eq_pass1 (adjT : Nat → Nat → Bool) (n : Nat) :
    ∀ (nodes : List Nat) (flags : List Bool),
      (sccPass2 adjT n nodes flags).1.flatten =
        (sccPass1 adjT n nodes flags).1 ∧
      (sccPass2 adjT n nodes flags).2 = (sccPass1 adjT n nodes flags).2 := by
  intro nodes
  induction nodes with
  | nil => intro flags; exact ⟨rfl, rfl⟩
  | cons node rest ih =>
    intro flags
    by_cases hfl : flags.getD node false = true
    · simp only [sccPass2, sccPass1, if_pos hfl]
      exact ih flags
    · simp only [sccPass2, sccPass1, if_neg hfl]
      refine ⟨?_, (ih _).2⟩
      simp only [List.flatten_cons]
      rw [(ih _).1]

/-- Every flag of `replicate n false` reads back `false`. -/
theorem getD_replicate_false : ∀ (n j : Nat),
    (List.replicate n false).getD j false = false := by
  intro n
  induction n with
  | zero => intro j; rfl
  | succ n ih =>
    intro j
    cases j with
    | zero => rfl
    | succ j => exact ih j

/-- Flattening commutes with mapping a function over every component. -/
theorem join_map_map {α β : Type} (f : α → β) :
    ∀ (L : List (List α)), (L.map (fun c => c.map f)).flatten = L.flatten.map f := by
  intro L
  induction L with
  | nil => rfl
  | cons c L ih =>
    simp only [List.map_cons, List.flatten_cons, List.map_append, ih]

/-- Counting in a flattened list sums the per-component counts. -/
theorem count_join {α : Type} [DecidableEq α] (x : α) :
    ∀ (L : List (List α)), L.flatten.count x = (L.map (fun c => c.count x)).sum := by
  intro L
  induction L with
  | nil => rfl
  | cons c L ih =>
    simp only [List.flatten_cons, List.count_append, List.map_cons, List.sum_cons, ih]

/-! ## Claim C3: `strongly_connected_components` partitions the states -/

/-- Claim C3: the components returned by `strongly_connected_components`
partition the state set: their concatenation is a permutation of the labels,
every label is contained in exactly one component (counted once), and every
component member is a label. -/
theorem strongly_connected_components_partition (adj : Nat → Nat → Bool)
    (n : Nat) (labels : List Nat) (hlen : labels.length = n)
    (hnd : labels.Nodup) :
    ((strongly_connected_components adj n labels).flatten).Perm labels ∧
    (∀ x ∈ labels, ((strongly_connected_components adj n labels).map
        (fun comp => comp.count x)).sum = 1) ∧
    (∀ comp ∈ strongly_connected_components adj n labels,
      ∀ x ∈ comp, x ∈ labels) := by
  have P1 := sccPass1_spec adj n (List.range n) (List.replicate n false)
    (fun v hv => List.mem_range.mp hv) (List.length_replicate n false)
  have hmem1 : ∀ j, j ∈ (sccPass1 adj n (List.range n)
      (List.replicate n false)).1 ↔ j < n := by
    intro j
    constructor
    · intro hj
      exact (P1.fresh j hj).2
    · intro hj
      have hc := P1.covered j (List.mem_range.mpr hj)
      rw [P1.mem_out, getD_replicate_false] at hc
      simpa using hc
  have P2 := sccPass1_spec (fun i j => adj j i) n
    (sccPass1 adj n (List.range n) (List.replicate n false)).1.reverse
    (List.replicate n false)
    (fun v hv => (hmem1 v).mp (List.mem_reverse.mp hv))
    (List.length_replicate n false)
  have hmem2 : ∀ j, j ∈ (sccPass1 (fun i j => adj j i) n
      (sccPass1 adj n (List.range n) (List.replicate n false)).1.reverse
      (List.replicate n false)).1 ↔ j < n := by
    intro j
    constructor
    · intro hj
      exact (P2.fresh j hj).2
    · intro hj
      have hc := P2.covered j (List.mem_reverse.mpr ((hmem1 j).mpr hj))
      rw [P2.mem_out, getD_replicate_false] at hc
      simpa using hc
  have hjoin : (strongly_connected_components adj n labels).flatten =
      (sccPass1 (fun i j => adj j i) n
        (sccPass1 adj n (List.range n) (List.replicate n false)).1.reverse
        (List.replicate n false)).1.map (fun i => labels.getD i 0) := by
    unfold strongly_connected_components
    rw [join_map_map]
    rw [(sccPass2_eq_pass1 (fun i j => adj j i) n _ _).1]
  have hpermidx : (sccPass1 (fun i j => adj j i) n
      (sccPass1 adj n (List.range n) (List.replicate n false)).1.reverse
      (List.replicate n false)).1.Perm (List.range n) := by
    rw [List.perm_ext_iff_of_nodup P2.nodup (List.nodup_range n)]
    intro a
    rw [hmem2 a, List.mem_range]
  have hperm : ((strongly_connected_components adj n labels).flatten).Perm labels := by
    rw [hjoin]
    have h1 := hpermidx.map (fun i => labels.getD i 0)
    have h2 : (List.range n).map (fun i => labels.getD i 0) = labels := by
      rw [← hlen]
      exact map_getD_range labels 0
    rw [h2] at h1
    exact h1
  refine ⟨hperm, ?_, ?_⟩
  · intro x hx
    have hc : ((strongly_connected_components adj n labels).flatten).count x =
        labels.count x := hperm.count_eq x
    rw [count_join] at hc
    rw [hc]
    exact List.count_eq_one_of_mem hnd hx
  · intro comp hcomp x hxc
    have hxj : x ∈ (strongly_connected_components adj n labels).flatten :=
      List.mem_flatten.mpr ⟨comp, hcomp, hxc⟩
    exact hperm.mem_iff.mp hxj

/-- Witness for `strongly_connected_components_partition` on the path
`0 → 1 → 2` with labels `[0, 1, 2]`: the flattened components are a
permutation of the labels and label `1` occurs in exactly one component. -/
theorem strongly_connected_components_partition_witness :
    ((strongly_connected_components pathAdj 3 [0, 1, 2]).flatten).Perm [0, 1, 2] ∧
    ((strongly_connected_components pathAdj 3 [0, 1, 2]).map
      (fun comp => comp.count 1)).sum = 1 := by
  have h := strongly_connected_components_partition pathAdj 3 [0, 1, 2]
    (by decide) (by decide)
  exact ⟨h.1, h.2.1 1 (by decide)⟩

/-! ## Lemmas: periodicity detector -/

/-- The source's iterative `gcd` agrees with `Nat.gcd`. -/
theorem gcd_eq_nat_gcd : ∀ (b a : Nat), gcd a b = Nat.gcd a b := by
  intro b
  induction b using Nat.strong_induction_on with
  | _ b ih =>
    intro a
    match b with
    | 0 => rw [gcd, Nat.gcd_zero_right]
    | b + 1 =>
      have hlt : a % (b + 1) < b + 1 := Nat.mod_lt _ (Nat.succ_pos b)
      calc gcd a (b + 1) = gcd (b + 1) (a % (b + 1)) := by rw [gcd]
        _ = Nat.gcd (b + 1) (a % (b + 1)) := ih _ hlt _
        _ = Nat.gcd (a % (b + 1)) (b + 1) := Nat.gcd_comm _ _
        _ = Nat.gcd (b + 1) a := (Nat.gcd_rec (b + 1) a).symm
        _ = Nat.gcd a (b + 1) := Nat.gcd_comm _ _

/-- The period update of the inner loop is one `Nat.gcd` step (`0` models the
source's `-1` "no return seen yet" sentinel; the source only applies `gcd`
once the sentinel is replaced, and `Nat.gcd i 0 = i` matches the
replacement). -/
theorem periodUpdate_eq (i p : Nat) :
    (if p = 0 then i else gcd i p) = Nat.gcd i p := by
  by_cases hp : p = 0
  · subst hp
    rw [if_pos rfl, Nat.gcd_zero_right]
  · rw [if_neg hp, gcd_eq_nat_gcd]

/-- Once the accumulated period has reached `1`, further gcd steps keep it at
`1` -- the loop's early break is invisible in the final value. -/
theorem foldl_gcd_one : ∀ (l : List Nat),
    l.foldl (fun a k => Nat.gcd k a) 1 = 1 := by
  intro l
  induction l with
  | nil => rfl
  | cons k l ih =>
    simpa [List.foldl_cons, Nat.gcd_one_right] using ih

/-- The inner loop of `_determine_aperiodicity` computes the gcd-fold of the
return times of the binarized walk over the remaining step budget. -/
theorem aperInner_eq (T : Nat → Nat → ℚ) (n s : Nat) :
    ∀ (steps : Nat) (pos : Nat → Bool) (i p : Nat), p ≠ 1 →
      aperInner T n s pos i steps p =
        ((List.range' i steps).filter
            (fun k => (binStep T n)^[k + 1 - i] pos s)).foldl
          (fun a k => Nat.gcd k a) p := by
  intro steps
  induction steps with
  | zero => intro pos i p _; rfl
  | succ steps ih =>
    intro pos i p hp
    have hhead : ((binStep T n)^[i + 1 - i] pos) s = binStep T n pos s := by
      have h1 : i + 1 - i = 1 := by omega
      rw [h1, Function.iterate_one]
    have htail : ∀ k ∈ List.range' (i + 1) steps,
        ((binStep T n)^[k + 1 - i] pos s) =
          ((binStep T n)^[k + 1 - (i + 1)] (binStep T n pos) s) := by
      intro k hk
      have hk1 : i + 1 ≤ k := (List.mem_range'_1.mp hk).1
      have h2 : k + 1 - i = (k + 1 - (i + 1)) + 1 := by omega
      rw [h2, Function.iterate_succ_apply]
    have hfc : (List.range' (i + 1) steps).filter
          (fun k => (binStep T n)^[k + 1 - i] pos s) =
        (List.range' (i + 1) steps).filter
          (fun k => (binStep T n)^[k + 1 - (i + 1)] (binStep T n pos) s) :=
      List.filter_congr htail
    simp only [aperInner, periodUpdate_eq]
    by_cases hpos : binStep T n pos s = true
    · rw [if_pos hpos]
      rw [List.range'_succ, List.filter_cons]
      rw [hhead] at *
      simp only [hpos, if_pos, List.foldl_cons]
      by_cases hg : Nat.gcd i p = 1
      · rw [if_pos hg, hg, foldl_gcd_one]
      · rw [if_neg hg, ih (binStep T n pos) (i + 1) (Nat.gcd i p) hg, hfc]
    · have hposf : binStep T n pos s = false := by
        cases hx : binStep T n pos s
        · rfl
        · exact absurd hx hpos
      rw [if_neg hpos, if_neg hp]
      rw [List.range'_succ, List.filter_cons, hhead, hposf]
      simp only [Bool.false_eq_true, if_false]
      rw [ih (binStep T n pos) (i + 1) p hp, hfc]

/-- The inner loop started on the indicator of `s` with the full budget
computes exactly `statePeriod`. -/
theorem aperInner_statePeriod (T : Nat → Nat → ℚ) (n s : Nat) :
    aperInner T n s (indicator s) 1 (2 * n - 1) 0 = statePeriod T n s := by
  rw [aperInner_eq T n s (2 * n - 1) (indicator s) 1 0 (by omega)]
  unfold statePeriod
  congr 1

/-- The outer loop over the remaining states. -/
theorem aperOuter_eq (T : Nat → Nat → ℚ) (n : Nat) (irred : Bool) :
    ∀ (rem s : Nat), s + rem = n →
      (aperOuter T n irred rem s = true ↔
        ((irred = true ∧ s < n ∧ statePeriod T n s = 1) ∨
          ∀ t, s ≤ t → t < n → statePeriod T n t = 1)) := by
  intro rem
  induction rem with
  | zero =>
    intro s hs
    constructor
    · intro _
      exact Or.inr (fun t ht1 ht2 => by omega)
    · intro _
      rfl
  | succ rem ih =>
    intro s hs
    have hsn : s < n := by omega
    have hred : aperOuter T n irred (rem + 1) s =
        (if statePeriod T n s = 1 then
          (if irred = true then true else aperOuter T n irred rem (s + 1))
        else false) := by
      simp only [aperOuter, aperInner_statePeriod]
    by_cases hp : statePeriod T n s = 1
    · cases hirr : irred with
      | true =>
        rw [hirr] at hred
        rw [hred, if_pos hp, if_pos rfl]
        constructor
        · intro _
          exact Or.inl ⟨rfl, hsn, hp⟩
        · intro _
          rfl
      | false =>
        rw [hirr] at hred ih
        rw [hred, if_pos hp, if_neg (by simp)]
        rw [ih (s + 1) (by omega)]
        constructor
        · rintro (⟨h1, _⟩ | h2)
          · cases h1
          · refine Or.inr (fun t ht1 ht2 => ?_)
            rcases Nat.eq_or_lt_of_le ht1 with heq | hlt
            · rw [← heq]
              exact hp
            · exact h2 t hlt ht2
        · rintro (⟨h1, _⟩ | h2)
          · cases h1
          · exact Or.inr (fun t ht1 ht2 => h2 t (by omega) ht2)
    · rw [hred, if_neg hp]
      constructor
      · intro h
        cases h
      · rintro (⟨_, _, h⟩ | h)
        · exact absurd h hp
        · exact absurd (h s (Nat.le_refl s) hsn) hp

/-! ## Claim C2: `_determine_aperiodicity` -/

/-- Claim C2: `_determine_aperiodicity` probes each state `s` with the
indicator-vector walk binarized after every step for at most `2 n - 1` steps
and accumulates the gcd of the return times (`statePeriod`); it answers
`False` as soon as a probed state's accumulated period is not `1` after the
budget, answers `True` immediately when a state's period reaches `1` on an
irreducible chain (so on an irreducible chain the answer is decided entirely
by the first state), and answers `True` when every state individually
resolves to period `1`. -/
theorem determine_aperiodicity_spec (T : Nat → Nat → ℚ) (n : Nat)
    (irred : Bool) :
    determineAperiodicity T n irred = true ↔
      ((irred = true ∧ 0 < n ∧ statePeriod T n 0 = 1) ∨
        ∀ s, s < n → statePeriod T n s = 1) := by
  unfold determineAperiodicity
  rw [aperOuter_eq T n irred n 0 (by omega)]
  constructor
  · rintro (h | h)
    · exact Or.inl h
    · exact Or.inr (fun s hs => h s (Nat.zero_le s) hs)
  · rintro (h | h)
    · exact Or.inl h
    · exact Or.inr (fun t _ ht => h t ht)

/-- Claim C2 at model level: `is_aperiodic` is `True` exactly when either the
chain is irreducible and the first state's accumulated walk period is `1` (the
immediate `True` upon reaching period `1`, with the immediate `False` on a
budget-exhausted state covering every other irreducible case), or every
state's accumulated walk period is `1` (the per-state resolution used for
reducible chains); `statePeriod` is the gcd of the return step-lengths of the
binarized indicator walk within the `2 n - 1` step budget. -/
theorem is_aperiodic_spec (m : MarkovStateModel) :
    m.is_aperiodic = true ↔
      ((m.is_irreducible = true ∧ 0 < m.numStates ∧
          statePeriod (fun i j => m.transition_matrix.entry i j) m.numStates 0 = 1) ∨
        ∀ s, s < m.numStates →
          statePeriod (fun i j => m.transition_matrix.entry i j) m.numStates s = 1) :=
  determine_aperiodicity_spec (fun i j => m.transition_matrix.entry i j)
    m.numStates m.is_irreducible

end Mcmm
